import Mathlib

/-!
Verification of the epub-splitter chunk partitioner and EPUB structure
resolver.  JavaScript strings are modelled as `List Char`; JavaScript
numbers are modelled as `Nat` (all quantities involved are non-negative
integers; the float literals `0.1` and `1.2` are modelled by exact
rational arithmetic, `/10` and the comparison `10 * x ≤ 12 * y`).
Fallible steps (per-chapter extraction failures, out-of-bounds array
accesses that would throw in JavaScript) are modelled with `Option`.
DOM / ZIP primitives are black boxes per the system boundary and appear
as an abstract extraction oracle.
-/

namespace EpubSplitter

/-- JavaScript strings, modelled as lists of characters. -/
abbrev Str := List Char

/-- Convert a Lean string literal to the `Str` model. -/
def str (s : String) : Str := s.toList

/-- Whitespace class of the `/\s+/` regexes (ASCII part; the pipeline only
produces ASCII whitespace). -/
def isWS (c : Char) : Bool :=
  c = ' ' || c = '\t' || c = '\n' || c = '\r' || c = Char.ofNat 11 || c = Char.ofNat 12

/-- Word character class of `/\w/`: letters, digits, underscore. -/
def isWordChar (c : Char) : Bool :=
  c.isAlpha || c.isDigit || c = '_'

/-- Split on runs of whitespace, discarding empty tokens: the semantics of
`text.split(/\s+/).filter(w => w.length > 0)`. -/
def splitWSAux : Str → Str → List Str
  | [], acc => if acc = [] then [] else [acc.reverse]
  | c :: cs, acc =>
    if isWS c then
      (if acc = [] then splitWSAux cs [] else acc.reverse :: splitWSAux cs [])
    else splitWSAux cs (c :: acc)

/-- Tokenize a string on whitespace runs, keeping only non-empty tokens. -/
def splitWS (t : Str) : List Str := splitWSAux t []

/-- `countWords` of the EPUB parser (part_001): whitespace tokens that
contain at least one `\w` character. -/
def countWords (t : Str) : Nat :=
  ((splitWS t).filter (fun w => w.any isWordChar)).length

/-- `countWords` of the app (part_000): whitespace tokens of positive
length, no word-character filter. -/
def appCountWords (t : Str) : Nat := (splitWS t).length

/-- `needle` occurs as a contiguous substring of `hay`
(JavaScript `hay.includes(needle)`). -/
def containsSub (hay needle : Str) : Bool :=
  match hay with
  | [] => needle = []
  | _ :: t => needle.isPrefixOf hay || containsSub t needle

/-- `s` starts with `p` (JavaScript `s.startsWith(p)`). -/
def strStarts (s p : Str) : Bool := p.isPrefixOf s

/-- `s` ends with `p` (JavaScript `s.endsWith(p)`). -/
def strEnds (s p : Str) : Bool := p.reverse.isPrefixOf s.reverse

/-- The last character of a word belongs to the given set: semantics of the
anchored character-class regexes `/[.!?]$/` and `/[.!?;:]$/`. -/
def lastCharIn (w : Str) (cs : List Char) : Bool :=
  match w.getLast? with
  | some c => cs.contains c
  | none => false

/-- JavaScript `toLowerCase` (ASCII part). -/
def lowerStr (w : Str) : Str := w.map Char.toLower

/-- Decimal rendering of a natural number, for the `chunk-${n}` ids. -/
def natToStr (n : Nat) : Str := (Nat.repr n).toList

/-- The transition-word list of `calculateBreakPointScore`. -/
def transitionWords : List Str :=
  [str "however", str "therefore", str "meanwhile", str "furthermore",
   str "moreover", str "consequently"]

/-- The uppercase-start test of `calculateBreakPointScore`:
`afterWord[0] === afterWord[0].toUpperCase() && /[A-Z]/.test(afterWord[0])`,
with the truthiness guards on the word and its first character. -/
def startsUpperJs (w : Str) : Bool :=
  match w with
  | [] => false
  | c :: _ => c = c.toUpper && ('A' ≤ c && c ≤ 'Z')

/-- `calculateBreakPointScore(words, splitIndex)` (part_000, lines
1040-1081), translated condition for condition. -/
def calculateBreakPointScore (words : List Str) (splitIndex : Nat) : Nat :=
  if splitIndex = 0 || words.length ≤ splitIndex then 0
  else
    let beforeWord := words.getD (splitIndex - 1) []
    let afterWord := words.getD splitIndex []
    let score : Nat := 0
    let score := if lastCharIn beforeWord ['.', '!', '?'] then score + 100 else score
    let score := if containsSub beforeWord (str "\n\n") || containsSub afterWord (str "\n\n") then
        score + 80 else score
    let score := if lastCharIn beforeWord ['.', '!', '?', ';', ':'] then score + 60 else score
    let score := if startsUpperJs afterWord then score + 40 else score
    let score := if containsSub (lowerStr beforeWord) (str "chapter")
        || containsSub (lowerStr afterWord) (str "chapter") then score + 90 else score
    let score := if transitionWords.any (fun w => strStarts (lowerStr afterWord) w) then
        score + 30 else score
    score

/-- `findOptimalSplitPoint(words, targetSplit)` (part_000, lines 975-992):
search a window of `min(50, ⌊len/10⌋)` indices on both sides of the target
and keep the first strictly-better-scoring candidate. -/
def findOptimalSplitPoint (words : List Str) (targetSplit : Nat) : Nat :=
  let searchRange := min 50 (words.length / 10)
  let minSplit := max 1 (targetSplit - searchRange)
  let maxSplit := min (words.length - 1) (targetSplit + searchRange)
  let best := (List.range' minSplit (maxSplit + 1 - minSplit)).foldl
    (fun best i =>
      let sc := calculateBreakPointScore words i
      if best.2 < sc then (i, sc) else best)
    (targetSplit, calculateBreakPointScore words targetSplit)
  best.1

example : calculateBreakPointScore [str "End.", str "Chapter", str "Two"] 1 = 100 + 60 + 40 + 90 := by
  decide

example : findOptimalSplitPoint [str "End.", str "Chapter", str "Two", str "begins", str "now"] 1 = 1 := by
  decide

/-! ## Chunk partitioner data model (part_000) -/

/-- A working chunk during refinement. -/
structure Chunk where
  id : Str
  title : Str
  words : List Str
  wordCount : Nat
  startWordIndex : Nat
  endWordIndex : Nat
deriving DecidableEq

/-- A chapter record as produced by the parser and consumed by
`splitIntoChunks`. -/
structure Chapter where
  id : Str
  title : Str
  htmlContent : Str
  textContent : Str
  wordCount : Nat
  spineOrder : Nat
deriving DecidableEq

/-- The per-chapter record built inside `splitIntoChunks` (title and the
two content strings). -/
structure ContentItem where
  title : Str
  textContent : Str
  htmlContent : Str
deriving DecidableEq

/-- A chapter-boundary marker of `combineContentWithMarkers`. -/
structure ChapterMarker where
  title : Str
  startPosition : Nat
  endPosition : Nat
  textContent : Str
  htmlContent : Str
deriving DecidableEq

/-- The combined-corpus record of `combineContentWithMarkers`. -/
structure FullText where
  text : Str
  html : Str
  totalWords : Nat
  chapterMarkers : List ChapterMarker
deriving DecidableEq

/-- The id string `chunk-${n}`. -/
def chunkId (n : Nat) : Str := str "chunk-" ++ natToStr n

/-- The title string `Chunk ${n}`. -/
def chunkTitle (n : Nat) : Str := str "Chunk " ++ natToStr n

/-- `combineContentWithMarkers(content)` (part_000, lines 752-781): chains
the chapter texts with blank-line separators and records each chapter's
word-position interval, using the app's word counter. -/
def combineContentWithMarkers (content : List ContentItem) : FullText :=
  let st := content.foldl
    (fun (st : Str × Str × Nat × List ChapterMarker) ch =>
      let (text, html, pos, markers) := st
      let n := appCountWords ch.textContent
      (text ++ ch.textContent ++ str "\n\n",
       html ++ ch.htmlContent ++ str "\n\n",
       pos + n,
       markers ++ [{ title := ch.title, startPosition := pos, endPosition := pos + n,
                     textContent := ch.textContent, htmlContent := ch.htmlContent }]))
    ([], [], 0, [])
  { text := st.1, html := st.2.1, totalWords := st.2.2.1, chapterMarkers := st.2.2.2 }

/-- The `i`-th slice of the initial even split. -/
def initialChunkAt (words : List Str) (chunkCount i : Nat) : Chunk :=
  let wordsPerChunk := words.length / chunkCount
  let startIndex := i * wordsPerChunk
  let endIndex := if i = chunkCount - 1 then words.length else (i + 1) * wordsPerChunk
  let chunkWords := (words.drop startIndex).take (endIndex - startIndex)
  { id := chunkId (i + 1), title := chunkTitle (i + 1), words := chunkWords,
    wordCount := chunkWords.length, startWordIndex := startIndex, endWordIndex := endIndex }

/-- `initialChunkSplit(fullText, chunkCount, targetWords)` (part_000, lines
786-807): `chunkCount` contiguous slices of `⌊n / chunkCount⌋` words, the
last slice absorbing the remainder. -/
def initialChunkSplit (fullText : FullText) (chunkCount : Nat) : List Chunk :=
  (List.range chunkCount).map (initialChunkAt (splitWS fullText.text) chunkCount)

/-- The two halves replacing an oversized chunk: split `c` at the optimal
break point near its midpoint, numbering the halves `n+1` and `n+2`. -/
def splitChunkPair (c : Chunk) (n : Nat) : Chunk × Chunk :=
  let splitPoint := findOptimalSplitPoint c.words (c.words.length / 2)
  ({ id := chunkId (n + 1), title := chunkTitle (n + 1),
     words := c.words.take splitPoint, wordCount := splitPoint,
     startWordIndex := c.startWordIndex, endWordIndex := c.startWordIndex + splitPoint },
   { id := chunkId (n + 2), title := chunkTitle (n + 2),
     words := c.words.drop splitPoint, wordCount := c.words.length - splitPoint,
     startWordIndex := c.startWordIndex + splitPoint, endWordIndex := c.endWordIndex })

/-- The merge of an undersized chunk with its immediate successor in the
first refinement pass, numbered `n+1`. -/
def mergeChunkPair (c nxt : Chunk) (n : Nat) : Chunk :=
  { id := chunkId (n + 1), title := chunkTitle (n + 1),
    words := c.words ++ nxt.words, wordCount := c.wordCount + nxt.wordCount,
    startWordIndex := c.startWordIndex, endWordIndex := nxt.endWordIndex }

/-- The indexed for-loop of `performChunkRefinement` (part_000, lines
853-903), translated with its loop index `i` and the accumulated
`refinedChunks` array.  `i++` inside the merge branch skips the consumed
successor.  The merge flexibility test `combined <= maxWords * 1.2` is the
exact-arithmetic `10 * combined ≤ 12 * maxWords`. -/
def passIdxGo (minW maxW : Nat) (chunks : List Chunk) :
    Nat → Nat → List Chunk → List Chunk
  | _, 0, acc => acc
  | i, fuel + 1, acc =>
    match chunks[i]? with
    | none => acc
    | some c =>
      if maxW < c.wordCount then
        let p := splitChunkPair c acc.length
        passIdxGo minW maxW chunks (i + 1) fuel (acc ++ [p.1, p.2])
      else if c.wordCount < minW ∧ i + 1 < chunks.length then
        match chunks[i + 1]? with
        | some nxt =>
          if 10 * (c.wordCount + nxt.wordCount) ≤ 12 * maxW then
            passIdxGo minW maxW chunks (i + 2) fuel (acc ++ [mergeChunkPair c nxt acc.length])
          else
            passIdxGo minW maxW chunks (i + 1) fuel (acc ++ [c])
        | none => passIdxGo minW maxW chunks (i + 1) fuel (acc ++ [c])
      else
        passIdxGo minW maxW chunks (i + 1) fuel (acc ++ [c])

/-- The first split/merge pass of `performChunkRefinement`.  The loop
performs at most `chunks.length` iterations (the index is bumped by 1 or
2 per iteration), so that fuel is always sufficient. -/
def passIdx (minW maxW : Nat) (chunks : List Chunk) : List Chunk :=
  passIdxGo minW maxW chunks 0 chunks.length []

/-- Structural description of the same pass: a single left-to-right walk
where an oversized chunk is split in place and an undersized (non-final)
chunk merges with — and consumes — its immediate original successor when
the combined size passes the flexibility test. -/
def passRec (minW maxW : Nat) (n : Nat) : List Chunk → List Chunk
  | [] => []
  | c :: rest =>
    if maxW < c.wordCount then
      let p := splitChunkPair c n
      p.1 :: p.2 :: passRec minW maxW (n + 2) rest
    else
      match rest with
      | [] => [c]
      | nxt :: rest' =>
        if c.wordCount < minW then
          if 10 * (c.wordCount + nxt.wordCount) ≤ 12 * maxW then
            mergeChunkPair c nxt n :: passRec minW maxW (n + 1) rest'
          else
            c :: passRec minW maxW (n + 1) (nxt :: rest')
        else
          c :: passRec minW maxW (n + 1) (nxt :: rest')

/-- wordCount of the chunk at index `i`, with the (never reached for the
indices the loops visit) default 0. -/
def wcAt (cs : List Chunk) (i : Nat) : Nat :=
  (cs[i]?.map Chunk.wordCount).getD 0

/-- The smallest-chunk search of the too-many-chunks loop: index 0, then
every `i` with `1 ≤ i < length - 1`, first strict minimum wins. -/
def smallestIdx (cs : List Chunk) : Nat :=
  (List.range' 1 (cs.length - 2)).foldl
    (fun best i => if wcAt cs i < wcAt cs best then i else best) 0

/-- The largest-chunk search of the too-few-chunks loop: index 0, then
every `i` with `1 ≤ i < length`, first strict maximum wins. -/
def largestIdx (cs : List Chunk) : Nat :=
  (List.range' 1 (cs.length - 1)).foldl
    (fun best i => if wcAt cs best < wcAt cs i then i else best) 0

/-- `targetIndex = smallestIndex === 0 ? 1 : smallestIndex - 1`: the
adjacent merge partner in the too-many-chunks loop. -/
def mergeTargetIdx (si : Nat) : Nat :=
  match si with
  | 0 => 1
  | s + 1 => s

instance : Inhabited Chunk := ⟨⟨[], [], [], 0, 0, 0⟩⟩

/-- One merge of the too-many-chunks loop (part_000, lines 906-928).  The
two `splice` calls replace the adjacent pair at positions `lo`, `lo+1` by
the merged chunk.  `none` models the JavaScript `TypeError` thrown when an
index is out of bounds (never reached from the pipeline); under the
bounds guard every access is via `getD`, whose default is never used. -/
def mergeStep (cs : List Chunk) : Option (List Chunk) :=
  let si := smallestIdx cs
  let ti := mergeTargetIdx si
  if si < cs.length ∧ ti < cs.length then
    let a := cs.getD si default
    let b := cs.getD ti default
    let lo := min si ti
    let merged : Chunk :=
      { id := chunkId (ti + 1), title := chunkTitle (ti + 1),
        words := (cs.getD lo default).words ++ (cs.getD (lo + 1) default).words,
        wordCount := a.wordCount + b.wordCount,
        startWordIndex := min a.startWordIndex b.startWordIndex,
        endWordIndex := max a.endWordIndex b.endWordIndex }
    some (cs.take lo ++ merged :: cs.drop (lo + 2))
  else none

/-- One split of the too-few-chunks loop (part_000, lines 931-961): splice
the largest chunk out, splice its two halves in. -/
def splitStep (cs : List Chunk) : Option (List Chunk) :=
  let li := largestIdx cs
  if li < cs.length then
    let p := splitChunkPair (cs.getD li default) li
    some (cs.take li ++ p.1 :: p.2 :: cs.drop (li + 1))
  else none

/-- The merged pair of `mergeStep` sits at adjacent positions
`min si ti`, `min si ti + 1`, both in bounds. -/
theorem mergeTargetIdx_min_bound {si ti n : Nat} (hdef : ti = mergeTargetIdx si)
    (hsi : si < n) (hti : ti < n) : min si ti + 2 ≤ n := by
  cases si with
  | zero => simp [mergeTargetIdx] at hdef; omega
  | succ s => simp [mergeTargetIdx] at hdef; omega

/-- `mergeStep` shortens the list by exactly one chunk. -/
theorem mergeStep_length {cs cs' : List Chunk} (h : mergeStep cs = some cs') :
    cs'.length + 1 = cs.length := by
  dsimp only [mergeStep] at h
  split at h
  case isFalse => exact absurd h (by simp)
  case isTrue hb =>
    have hlo := mergeTargetIdx_min_bound rfl hb.1 hb.2
    have h' := Option.some.inj h
    rw [← h']
    simp only [List.length_append, List.length_cons, List.length_take, List.length_drop]
    omega

/-- `splitStep` lengthens the list by exactly one chunk. -/
theorem splitStep_length {cs cs' : List Chunk} (h : splitStep cs = some cs') :
    cs'.length = cs.length + 1 := by
  dsimp only [splitStep] at h
  split at h
  case isFalse => exact absurd h (by simp)
  case isTrue hli =>
    have h' := Option.some.inj h
    rw [← h']
    simp only [List.length_append, List.length_cons, List.length_take, List.length_drop]
    omega

/-- The too-many-chunks `while` loop, fuelled.  Each successful
`mergeStep` shortens the list by one, so `cs.length` units of fuel always
suffice and the fuel-exhausted arm is unreachable. -/
def mergeLoopGo (targetCount : Nat) : Nat → List Chunk → Option (List Chunk)
  | 0, cs => if targetCount < cs.length then none else some cs
  | fuel + 1, cs =>
    if targetCount < cs.length then (mergeStep cs).bind (mergeLoopGo targetCount fuel)
    else some cs

/-- The too-many-chunks `while` loop of `performChunkRefinement`. -/
def mergeLoop (targetCount : Nat) (cs : List Chunk) : Option (List Chunk) :=
  mergeLoopGo targetCount cs.length cs

/-- The too-few-chunks `while` loop, fuelled.  Each successful `splitStep`
lengthens the list by one, so `targetCount` units of fuel always suffice
and the fuel-exhausted arm is unreachable. -/
def splitLoopGo (targetCount : Nat) : Nat → List Chunk → Option (List Chunk)
  | 0, cs => if cs.length < targetCount then none else some cs
  | fuel + 1, cs =>
    if cs.length < targetCount then (splitStep cs).bind (splitLoopGo targetCount fuel)
    else some cs

/-- The too-few-chunks `while` loop of `performChunkRefinement`. -/
def splitLoop (targetCount : Nat) (cs : List Chunk) : Option (List Chunk) :=
  splitLoopGo targetCount targetCount cs

/-- The final renumbering pass of `performChunkRefinement`, from position
`i`. -/
def renumberGo (i : Nat) : List Chunk → List Chunk
  | [] => []
  | c :: rest =>
    { c with id := chunkId (i + 1), title := chunkTitle (i + 1) } :: renumberGo (i + 1) rest

/-- The final renumbering pass: `chunk.id`/`chunk.title` become 1-based
sequential. -/
def renumber (cs : List Chunk) : List Chunk := renumberGo 0 cs

/-- `performChunkRefinement(chunks, targetCount, targetWords, tolerance)`
(part_000, lines 848-970): the indexed split/merge pass, then the
count-forcing merge and split loops, then renumbering.  The truncated
`targetWords - tolerance` agrees with the JavaScript signed subtraction:
a negative lower bound makes `wordCount < minWords` unsatisfiable, exactly
as `wordCount < 0` is. -/
def performChunkRefinement (chunks : List Chunk) (targetCount targetWords tolerance : Nat) :
    Option (List Chunk) := do
  let minWords := targetWords - tolerance
  let maxWords := targetWords + tolerance
  let refined := passIdx minWords maxWords chunks
  let merged ← mergeLoop targetCount refined
  let split ← splitLoop targetCount merged
  pure (renumber split)

/-- The recursion of `refineChunksRecursively`, on the remaining
iteration budget `maxIterations - iteration` (zero budget returns the
chunks unchanged, exactly the `iteration >= maxIterations` guard). -/
def refineRecGo (targetCount targetWords tolerance : Nat) :
    Nat → List Chunk → Option (List Chunk)
  | 0, chunks => some chunks
  | budget + 1, chunks =>
    let minWords := targetWords - tolerance
    let maxWords := targetWords + tolerance
    let needsRefinement :=
      chunks.any (fun c => c.wordCount < minWords || maxWords < c.wordCount)
        || chunks.length ≠ targetCount
    if needsRefinement then
      (performChunkRefinement chunks targetCount targetWords tolerance).bind
        (refineRecGo targetCount targetWords tolerance budget)
    else some chunks

/-- `refineChunksRecursively(chunks, targetCount, targetWords, tolerance,
iteration, maxIterations)` (part_000, lines 812-843). -/
def refineChunksRecursively (chunks : List Chunk)
    (targetCount targetWords tolerance iteration maxIterations : Nat) :
    Option (List Chunk) :=
  refineRecGo targetCount targetWords tolerance (maxIterations - iteration) chunks

/-- `findChapterAtPosition(wordPosition, originalContent)` inner scan. -/
def chapterAtPosGo (pos : Nat) : List ContentItem → Nat → Option ContentItem
  | [], _ => none
  | ch :: rest, cur =>
    let n := appCountWords ch.textContent
    if cur ≤ pos ∧ pos < cur + n then some ch else chapterAtPosGo pos rest (cur + n)

/-- `findChapterAtPosition` (part_000, lines 1023-1035): scan the chapter
intervals, falling back to the last chapter. -/
def findChapterAtPosition (pos : Nat) (content : List ContentItem) : Option ContentItem :=
  match chapterAtPosGo pos content 0 with
  | some ch => some ch
  | none => content.getLast?

/-- Join a word list with single spaces (`words.join(' ')`). -/
def joinWords : List Str → Str
  | [] => []
  | [w] => w
  | w :: rest => w ++ ' ' :: joinWords rest

/-- HTML escaping via the DOM (`div.textContent = text; div.innerHTML`):
modelled by the standard text-node serialization of `&`, `<`, `>`. -/
def escapeHtml (t : Str) : Str :=
  t.foldr
    (fun c acc =>
      if c = '&' then str "&amp;" ++ acc
      else if c = '<' then str "&lt;" ++ acc
      else if c = '>' then str "&gt;" ++ acc
      else c :: acc) []

/-- A formatted chunk as returned by `formatFinalChunks`. -/
structure FinalChunk where
  id : Str
  title : Str
  textContent : Str
  htmlContent : Str
  wordCount : Nat
  startChapter : Str
  endChapter : Str
deriving DecidableEq

/-- The `chapter?.title || 'Unknown'` attribution. -/
def chapterTitleOf (c : Option ContentItem) : Str :=
  match c with
  | some ch => if ch.title = [] then str "Unknown" else ch.title
  | none => str "Unknown"

/-- `formatFinalChunks(chunks, originalContent)` (part_000, lines
997-1018). -/
def formatFinalChunks (chunks : List Chunk) (originalContent : List ContentItem) :
    List FinalChunk :=
  chunks.map (fun c =>
    let textContent := joinWords c.words
    let startChapter := findChapterAtPosition c.startWordIndex originalContent
    let endChapter := findChapterAtPosition (c.endWordIndex - 1) originalContent
    { id := c.id, title := c.title, textContent := textContent,
      htmlContent := str "<div class=\"chunk-content\">" ++ escapeHtml textContent ++ str "</div>",
      wordCount := c.wordCount,
      startChapter := chapterTitleOf startChapter,
      endChapter := chapterTitleOf endChapter })

/-- Stable insertion of a chapter into a spine-order-sorted list; models
the stable `sort((a, b) => a.spineOrder - b.spineOrder)`. -/
def insertChapter (c : Chapter) : List Chapter → List Chapter
  | [] => [c]
  | d :: rest =>
    if d.spineOrder < c.spineOrder then d :: insertChapter c rest else c :: d :: rest

/-- Stable sort of the chapter list by `spineOrder`. -/
def sortChapters (chapters : List Chapter) : List Chapter :=
  chapters.foldr insertChapter []

/-- The content projection built in `splitIntoChunks`. -/
def toContent (c : Chapter) : ContentItem :=
  { title := c.title, textContent := c.textContent, htmlContent := c.htmlContent }

/-- `totalWords` of `splitIntoChunks`/`calculateChunks`: the sum of the
chapters' stored `wordCount` fields. -/
def storedTotalWords (chapters : List Chapter) : Nat :=
  (chapters.map Chapter.wordCount).sum

/-- `targetWordsPerChunk = Math.floor(totalWords / chunkCount)`. -/
def targetWordsOf (chapters : List Chapter) (chunkCount : Nat) : Nat :=
  storedTotalWords chapters / chunkCount

/-- `tolerance = Math.floor(targetWordsPerChunk * 0.1)`, exactly `/ 10`. -/
def toleranceOf (chapters : List Chapter) (chunkCount : Nat) : Nat :=
  targetWordsOf chapters chunkCount / 10

/-- The chunk-producing stage of `createIntelligentChunks` (part_000,
lines 734-747): initial split then bounded recursive refinement, before
final formatting. -/
def chunkPipeline (content : List ContentItem) (chunkCount targetWords tolerance : Nat) :
    Option (List Chunk) :=
  refineChunksRecursively (initialChunkSplit (combineContentWithMarkers content) chunkCount)
    chunkCount targetWords tolerance 0 5

/-- `createIntelligentChunks` returning the formatted chunks. -/
def createIntelligentChunks (content : List ContentItem) (chunkCount targetWords tolerance : Nat) :
    Option (List FinalChunk) :=
  (chunkPipeline content chunkCount targetWords tolerance).map
    (fun cs => formatFinalChunks cs content)

/-- The refinement stage of `splitIntoChunks` (part_000, lines 694-729)
applied to a chapter list: sort by spine order, compute target and
tolerance from the stored word counts, split and refine. -/
def partitionStage (chapters : List Chapter) (chunkCount : Nat) : Option (List Chunk) :=
  chunkPipeline ((sortChapters chapters).map toContent) chunkCount
    (targetWordsOf chapters chunkCount) (toleranceOf chapters chunkCount)

/-- `splitIntoChunks` with an already-parsed chunk count: the full
partition, producing formatted chunks.  Note the function performs no
validation of `chunkCount`. -/
def splitIntoChunksCore (chapters : List Chapter) (chunkCount : Nat) :
    Option (List FinalChunk) :=
  (partitionStage chapters chunkCount).map
    (fun cs => formatFinalChunks cs ((sortChapters chapters).map toContent))

/-- The preview record displayed by `calculateChunks`. -/
structure ChunkPreview where
  totalWords : Nat
  targetWordsPerChunk : Nat
  minWords : Nat
  maxWords : Nat
deriving DecidableEq

/-- The validation alert text of `calculateChunks`. -/
def chunkCountAlert : Str := str "Please enter a valid number of chunks (minimum 2)"

/-- `calculateChunks` (part_000, lines 663-689): `parseInt` of the input
field is modelled as `Option Int` (`none` = `NaN`); a missing or
too-small count is rejected with the alert before any computation. -/
def calculateChunks (chapters : List Chapter) (rawCount : Option Int) :
    Except Str ChunkPreview :=
  match rawCount with
  | none => .error chunkCountAlert
  | some k =>
    if k < 2 then .error chunkCountAlert
    else
      let totalWords := storedTotalWords chapters
      let target := totalWords / k.toNat
      let tolerance := target / 10
      .ok { totalWords := totalWords, targetWordsPerChunk := target,
            minWords := target - tolerance, maxWords := target + tolerance }

/-! ## EPUB structure resolver (part_001) -/

/-- A manifest entry: resolved href, media type, property flags. -/
structure ManifestItem where
  href : Str
  mediaType : Str
  properties : Str
deriving DecidableEq

/-- The manifest object, id → item, in key-insertion order (EPUB manifest
ids are not integer-like strings, so JavaScript object-key order is
insertion order; keys are unique because later assignments overwrite). -/
abbrev Manifest := List (Str × ManifestItem)

/-- A spine entry. -/
structure SpineItem where
  idref : Str
  order : Nat
  linear : Bool
deriving DecidableEq

/-- A flattened navigation entry (fragment already stripped by the
navigation parsers). -/
structure NavItem where
  id : Str
  title : Str
  href : Str
deriving DecidableEq

/-- `manifest[id]` object-key lookup. -/
def manifestLookup (manifest : Manifest) (id : Str) : Option ManifestItem :=
  ((manifest.find? (fun e => e.1 = id)).map (fun e => e.2))

/-- `id.replace(/\D/g, '')`: keep only the decimal digits. -/
def digitsOf (s : Str) : Str := s.filter Char.isDigit

/-- `parseInt` on an all-digit string: `NaN` (`none`) exactly on the empty
string. -/
def parseIntDigits (s : Str) : Option Nat :=
  if s = [] then none
  else some (s.foldl (fun n c => 10 * n + (c.toNat - 48)) 0)

/-- `findSpineOrder(manifest, href)` (part_001, lines 490-496): find the
manifest entry with this exact href and parse the digits embedded in its
manifest id (`parseInt(id.replace(/\D/g, '')) || 0`), defaulting to 999
when no entry matches.  Note: the spine itself is never consulted. -/
def findSpineOrder (manifest : Manifest) (href : Str) : Nat :=
  match manifest.find? (fun e => e.2.href = href) with
  | some e =>
    match parseIntDigits (digitsOf e.1) with
    | none => 0
    | some n => n
  | none => 999

/-- The DOM/ZIP black boxes used by chapter extraction, per the system
boundary: `extractHTML` is `extractHTMLContent` (`none` models a thrown,
per-chapter-caught extraction error), `fragment` is
`extractFragmentContent` (`none` models its falsy fall-through), and
`extractText` is `extractTextContent`. -/
structure ExtractOracle where
  extractHTML : Str → Option Str
  fragment : Str → Str → Option Str
  extractText : Str → Str

/-- The manifest match of `extractChaptersFromNavigation`:
`item.href.endsWith(navItem.href) || item.href.includes(navItem.href.split('#')[0])`,
first match in object-value order wins. -/
def navManifestMatch (manifest : Manifest) (navHref : Str) : Option ManifestItem :=
  (manifest.map (fun e => e.2)).find?
    (fun item => strEnds item.href navHref
      || containsSub item.href (navHref.takeWhile (fun c => c ≠ '#')))

/-- The fragment part `href.split('#')[1]` (empty when no fragment). -/
def fragmentOf (href : Str) : Str :=
  ((href.dropWhile (fun c => c ≠ '#')).drop 1).takeWhile (fun c => c ≠ '#')

/-- `extractChaptersFromNavigation` (part_001, lines 274-325): walk the
flattened navigation entries with a processed-file set, resolve each
against the manifest, extract, optionally slice the fragment, and keep
only chapters with more than 10 words. -/
def extractChaptersFromNavigation (ora : ExtractOracle) (zip : List Str)
    (manifest : Manifest) : List NavItem → List Str → List Chapter
  | [], _ => []
  | nav :: rest, processed =>
    match navManifestMatch manifest nav.href with
    | none => extractChaptersFromNavigation ora zip manifest rest processed
    | some mi =>
      if zip.contains mi.href then
        let fileKey := mi.href ++ '#' :: nav.href
        if processed.contains fileKey then
          extractChaptersFromNavigation ora zip manifest rest processed
        else
          let processed' := fileKey :: processed
          match ora.extractHTML mi.href with
          | none => extractChaptersFromNavigation ora zip manifest rest processed'
          | some html =>
            let html' := if nav.href.contains '#' then
                (ora.fragment html (fragmentOf nav.href)).getD html
              else html
            let text := ora.extractText html'
            let wordCount := countWords text
            if 10 < wordCount then
              { id := nav.id, title := nav.title, htmlContent := html',
                textContent := text, wordCount := wordCount,
                spineOrder := findSpineOrder manifest mi.href }
                :: extractChaptersFromNavigation ora zip manifest rest processed'
            else
              extractChaptersFromNavigation ora zip manifest rest processed'
      else
        extractChaptersFromNavigation ora zip manifest rest processed

/-- The last path component, `href.split('/').pop()`. -/
def lastPathComp (s : Str) : Str :=
  ((s.reverse).takeWhile (fun c => c ≠ '/')).reverse

/-- The indexed loop of `extractChaptersFromSpine` (part_001, lines
370-399): no minimum-word-count filter; a failed extraction or unresolved
resource is skipped. -/
def spineGo (ora : ExtractOracle) (zip : List Str) (manifest : Manifest) :
    List SpineItem → Nat → List Chapter
  | [], _ => []
  | sp :: rest, i =>
    match manifestLookup manifest sp.idref with
    | none => spineGo ora zip manifest rest (i + 1)
    | some mi =>
      if zip.contains mi.href then
        match ora.extractHTML mi.href with
        | none => spineGo ora zip manifest rest (i + 1)
        | some html =>
          let text := ora.extractText html
          { id := str "spine-" ++ natToStr i,
            title := str "Chapter " ++ natToStr (i + 1) ++ str " (" ++ lastPathComp mi.href ++ str ")",
            htmlContent := html, textContent := text, wordCount := countWords text,
            spineOrder := i }
            :: spineGo ora zip manifest rest (i + 1)
      else spineGo ora zip manifest rest (i + 1)

/-- `extractChaptersFromSpine`, starting at spine position 0. -/
def extractChaptersFromSpine (ora : ExtractOracle) (zip : List Str)
    (manifest : Manifest) (spine : List SpineItem) : List Chapter :=
  spineGo ora zip manifest spine 0

/-! ## Specification-side definitions and invariants -/

/-- The word sequence that `initialChunkSplit` actually slices: the
whitespace split of the combined corpus text of the spine-sorted
chapters. -/
def corpusWordSeq (chapters : List Chapter) : List Str :=
  splitWS (combineContentWithMarkers ((sortChapters chapters).map toContent)).text

/-- The length of the corpus word sequence: the total word count in the
sense of the partition-coverage properties. -/
def corpusTotalWords (chapters : List Chapter) : Nat :=
  (corpusWordSeq chapters).length

/-- The following word begins with an uppercase letter, as the
specification words the +40 rule. -/
def startsUpper (w : Str) : Bool :=
  match w with
  | [] => false
  | c :: _ => 'A' ≤ c && c ≤ 'Z'

/-- The break-point score as the specification states it: a sum of
independent bonuses, zero at the extremes. -/
def breakScoreSpec (words : List Str) (i : Nat) : Nat :=
  if i = 0 ∨ words.length ≤ i then 0
  else
    let bw := words.getD (i - 1) []
    let aw := words.getD i []
    (if lastCharIn bw ['.'] || lastCharIn bw ['!'] || lastCharIn bw ['?'] then 100 else 0)
    + (if containsSub bw (str "\n\n") || containsSub aw (str "\n\n") then 80 else 0)
    + (if lastCharIn bw ['.'] || lastCharIn bw ['!'] || lastCharIn bw ['?']
        || lastCharIn bw [';'] || lastCharIn bw [':'] then 60 else 0)
    + (if startsUpper aw then 40 else 0)
    + (if containsSub (lowerStr bw) (str "chapter") || containsSub (lowerStr aw) (str "chapter")
        then 90 else 0)
    + (if transitionWords.any (fun w => strStarts (lowerStr aw) w) then 30 else 0)

/-- Modelled from the spec, for comparison with `passIdx`: phase (a) of a
refinement iteration as the specification describes it — "for every
current chunk whose word count exceeds the upper bound: split it at an
optimal break point near its midpoint; both halves replace the original
in sequence". -/
def specSplitPhase (maxW : Nat) (n : Nat) : List Chunk → List Chunk
  | [] => []
  | c :: rest =>
    if maxW < c.wordCount then
      let p := splitChunkPair c n
      p.1 :: p.2 :: specSplitPhase maxW (n + 2) rest
    else c :: specSplitPhase maxW (n + 1) rest

/-- Modelled from the spec, for comparison with `passIdx`: phase (b) as
the specification describes it — "for every remaining chunk whose word
count is below the lower bound (and which is not the last chunk): merge
it with its immediate successor if the merged size does not exceed
`upperBound * 1.2`". -/
def specMergePhase (minW maxW : Nat) (n : Nat) : List Chunk → List Chunk
  | [] => []
  | [c] => [c]
  | c :: nxt :: rest =>
    if c.wordCount < minW then
      if 10 * (c.wordCount + nxt.wordCount) ≤ 12 * maxW then
        mergeChunkPair c nxt n :: specMergePhase minW maxW (n + 1) rest
      else c :: specMergePhase minW maxW (n + 1) (nxt :: rest)
    else c :: specMergePhase minW maxW (n + 1) (nxt :: rest)

/-- Modelled from the spec: a whole refinement iteration with phase (a)
completed before phase (b) begins, as claimed, followed by the same
count-forcing loops and renumbering as the source. -/
def specRefineIteration (chunks : List Chunk) (targetCount targetWords tolerance : Nat) :
    Option (List Chunk) := do
  let minWords := targetWords - tolerance
  let maxWords := targetWords + tolerance
  let refined := specMergePhase minWords maxWords 0 (specSplitPhase maxWords 0 chunks)
  let merged ← mergeLoop targetCount refined
  let split ← splitLoop targetCount merged
  pure (renumber split)

/-- `Linked a cs b`: the chunks' half-open ranges tile `[a, b)` in list
order — each chunk starts where its predecessor ends, the stored
`wordCount` is the range width, and the word list has that length. -/
def Linked : Nat → List Chunk → Nat → Prop
  | a, [], b => a = b
  | a, c :: rest, b =>
    c.startWordIndex = a ∧ a ≤ c.endWordIndex ∧ c.wordCount = c.endWordIndex - a
      ∧ c.words.length = c.wordCount ∧ Linked c.endWordIndex rest b

/-! ## C7: break-point scoring refines its specification -/

/-- ASCII uppercase letters are fixed by `Char.toUpper`. -/
theorem toUpper_of_upper {c : Char} (h1 : 'A' ≤ c) (h2 : c ≤ 'Z') : c.toUpper = c := by
  have hv : c.toNat ≤ 90 := by
    simpa [Char.toNat, Char.le_def, UInt32.le_def, BitVec.le_def] using h2
  unfold Char.toUpper
  rw [if_neg]
  omega

/-- The code's uppercase-start test agrees with the specification's. -/
theorem startsUpperJs_eq (w : Str) : startsUpperJs w = startsUpper w := by
  cases w with
  | nil => rfl
  | cons c rest =>
    simp only [startsUpperJs, startsUpper]
    by_cases h : 'A' ≤ c ∧ c ≤ 'Z'
    · simp [h.1, h.2, toUpper_of_upper h.1 h.2]
    · rcases not_and_or.mp h with h' | h' <;> simp [h']

/-- Splitting a character-class test into per-character disjuncts. -/
theorem lastCharIn_cons (w : Str) (c : Char) (cs : List Char) :
    lastCharIn w (c :: cs) = (lastCharIn w [c] || lastCharIn w cs) := by
  unfold lastCharIn
  cases w.getLast? with
  | none => rfl
  | some d => simp [List.contains_cons, Bool.or_comm]

/-- C7: for every word sequence and every index, the break-point score of
`calculateBreakPointScore` equals the specification's sum of independent
bonuses — 0 at index 0 and at or past the final boundary, and the
applicable bonuses (+100, +80, +60, +40, +90, +30) added together, with
several rules allowed to fire at once. -/
theorem breakPointScore_refines_spec (words : List Str) (i : Nat) :
    calculateBreakPointScore words i = breakScoreSpec words i := by
  unfold calculateBreakPointScore breakScoreSpec
  by_cases h0 : i = 0 ∨ words.length ≤ i
  · have hb : (decide (i = 0) || decide (words.length ≤ i)) = true := by
      rcases h0 with h | h <;> simp [h]
    rw [if_pos hb, if_pos h0]
  · have hb : (decide (i = 0) || decide (words.length ≤ i)) = false := by
      push_neg at h0
      simp [h0.1, h0.2, Nat.not_le.mpr h0.2]
    rw [if_neg (by simp [hb] : ¬ (decide (i = 0) || decide (words.length ≤ i)) = true),
      if_neg h0]
    dsimp only
    rw [lastCharIn_cons _ '.' ['!', '?'], lastCharIn_cons _ '!' ['?'],
      lastCharIn_cons _ '.' ['!', '?', ';', ':'], lastCharIn_cons _ '!' ['?', ';', ':'],
      lastCharIn_cons _ '?' [';', ':'], lastCharIn_cons _ ';' [':'],
      startsUpperJs_eq]
    simp only [Bool.or_assoc]
    split_ifs <;> omega

/-! ## The first refinement pass as a single left-to-right walk -/

/-- A successful indexed lookup exposes the list as `drop n = a :: drop (n+1)`. -/
theorem drop_cons_of_getElem {α : Type} : ∀ {l : List α} {n : Nat} {a : α},
    l[n]? = some a → l.drop n = a :: l.drop (n + 1)
  | [], n, a, h => by simp at h
  | x :: xs, 0, a, h => by
    simp at h
    simp [h]
  | x :: xs, n + 1, a, h => by
    have h' : xs[n]? = some a := by simpa using h
    simpa using drop_cons_of_getElem h'

/-- The indexed loop of the first refinement pass computes the structural
single-pass walk `passRec`, for any sufficient fuel. -/
theorem passIdxGo_eq_passRec (minW maxW : Nat) (chunks : List Chunk) :
    ∀ (fuel i : Nat) (acc : List Chunk), chunks.length ≤ i + fuel →
      passIdxGo minW maxW chunks i fuel acc
        = acc ++ passRec minW maxW acc.length (chunks.drop i) := by
  intro fuel
  induction fuel with
  | zero =>
    intro i acc hlen
    rw [List.drop_eq_nil_of_le (by omega)]
    simp [passIdxGo, passRec]
  | succ fuel ih =>
    intro i acc hlen
    cases hget : chunks[i]? with
    | none =>
      have : chunks.length ≤ i := List.getElem?_eq_none_iff.mp hget
      rw [List.drop_eq_nil_of_le this]
      simp [passIdxGo, hget, passRec]
    | some c =>
      rw [drop_cons_of_getElem hget]
      unfold passIdxGo passRec
      rw [hget]
      dsimp only
      by_cases hbig : maxW < c.wordCount
      · rw [if_pos hbig, if_pos hbig, ih (i + 1) _ (by omega)]
        simp [List.append_assoc]
      · rw [if_neg hbig, if_neg hbig]
        by_cases hrest : i + 1 < chunks.length
        · cases hget2 : chunks[i + 1]? with
          | none =>
            exact absurd (List.getElem?_eq_none_iff.mp hget2) (by omega)
          | some nxt =>
            rw [drop_cons_of_getElem hget2]
            by_cases hsmall : c.wordCount < minW
            · rw [if_pos ⟨hsmall, hrest⟩]
              simp only [hget2]
              rw [if_pos hsmall]
              by_cases hflex : 10 * (c.wordCount + nxt.wordCount) ≤ 12 * maxW
              · rw [if_pos hflex, if_pos hflex, ih (i + 2) _ (by omega)]
                simp [List.append_assoc]
              · rw [if_neg hflex, if_neg hflex, ih (i + 1) _ (by omega),
                  drop_cons_of_getElem hget2]
                simp [List.append_assoc]
            · rw [if_neg (by tauto)]
              dsimp only
              rw [if_neg hsmall, ih (i + 1) _ (by omega), drop_cons_of_getElem hget2]
              simp [List.append_assoc]
        · have hnil : chunks.drop (i + 1) = [] := List.drop_eq_nil_of_le (by omega)
          rw [hnil, if_neg (by tauto), ih (i + 1) _ (by omega), hnil]
          by_cases hsmall : c.wordCount < minW <;> simp [passRec]

/-- The source's indexed pass equals the structural single pass. -/
theorem passIdx_eq_passRec (minW maxW : Nat) (chunks : List Chunk) :
    passIdx minW maxW chunks = passRec minW maxW 0 chunks := by
  have := passIdxGo_eq_passRec minW maxW chunks chunks.length 0 [] (by omega)
  simpa [passIdx] using this

/-! ## Range-partition invariant -/

/-- `Linked` splits over an append at an intermediate position. -/
theorem linked_append {l1 l2 : List Chunk} {a b : Nat} :
    Linked a (l1 ++ l2) b ↔ ∃ m, Linked a l1 m ∧ Linked m l2 b := by
  induction l1 generalizing a with
  | nil =>
    constructor
    · intro h
      exact ⟨a, rfl, h⟩
    · rintro ⟨m, hm, h⟩
      cases hm
      exact h
  | cons c rest ih =>
    constructor
    · rintro ⟨h1, h2, h3, h4, h5⟩
      obtain ⟨m, hm1, hm2⟩ := ih.mp h5
      exact ⟨m, ⟨h1, h2, h3, h4, hm1⟩, hm2⟩
    · rintro ⟨m, ⟨h1, h2, h3, h4, h5⟩, hm2⟩
      exact ⟨h1, h2, h3, h4, ih.mpr ⟨m, h5, hm2⟩⟩

/-- The start of a linked chunk list never exceeds its end. -/
theorem linked_le {cs : List Chunk} : ∀ {a b : Nat}, Linked a cs b → a ≤ b := by
  induction cs with
  | nil => intro a b h; exact Nat.le_of_eq h
  | cons c rest ih =>
    rintro a b ⟨_, h2, _, _, h5⟩
    exact Nat.le_trans h2 (ih h5)

/-- The word counts of a linked chunk list sum to the covered width. -/
theorem linked_sum {cs : List Chunk} : ∀ {a b : Nat}, Linked a cs b →
    (cs.map Chunk.wordCount).sum = b - a := by
  induction cs with
  | nil =>
    intro a b h
    cases h
    simp
  | cons c rest ih =>
    rintro a b ⟨_, h2, h3, _, h5⟩
    have hb := linked_le h5
    simp only [List.map_cons, List.sum_cons, ih h5, h3]
    omega

/-- A generic bound for the best-candidate folds of the index searches:
if the initial candidate and every list member satisfy `P`, so does the
fold's result. -/
theorem foldl_choice_bound {l : List Nat} {P : Nat → Prop} {f : Nat → Nat} :
    ∀ {init : Nat × Nat}, P init.1 → (∀ x ∈ l, P x) →
      P ((l.foldl (fun best i => if best.2 < f i then (i, f i) else best) init).1) := by
  induction l with
  | nil => intro init h0 _; exact h0
  | cons x rest ih =>
    intro init h0 hmem
    simp only [List.foldl_cons]
    by_cases h : init.2 < f x
    · rw [if_pos h]
      exact ih (hmem x (by simp)) (fun y hy => hmem y (by simp [hy]))
    · rw [if_neg h]
      exact ih h0 (fun y hy => hmem y (by simp [hy]))

/-- The chosen split point never exceeds the word-list length. -/
theorem findOptimalSplitPoint_le {words : List Str} {targetSplit : Nat}
    (h : targetSplit ≤ words.length) :
    findOptimalSplitPoint words targetSplit ≤ words.length := by
  unfold findOptimalSplitPoint
  dsimp only
  refine @foldl_choice_bound _ (fun x => x ≤ words.length)
    (fun i => calculateBreakPointScore words i) _ h ?_
  intro x hx
  have := List.mem_range'_1.mp hx
  omega

/-- The two halves of `splitChunkPair` tile the range of the chunk they
replace. -/
theorem splitChunkPair_linked {c : Chunk} {a : Nat}
    (h1 : c.startWordIndex = a) (h2 : a ≤ c.endWordIndex)
    (h3 : c.wordCount = c.endWordIndex - a) (h4 : c.words.length = c.wordCount)
    (n : Nat) :
    Linked a [(splitChunkPair c n).1, (splitChunkPair c n).2] c.endWordIndex := by
  have hsp : findOptimalSplitPoint c.words (c.words.length / 2) ≤ c.words.length :=
    findOptimalSplitPoint_le (Nat.div_le_self _ _)
  unfold splitChunkPair
  simp only [Linked, List.length_take, List.length_drop]
  refine ⟨h1, by omega, by omega, by omega, trivial, by omega, by omega, trivial, trivial⟩

/-- The merge of two adjacent linked chunks tiles their union. -/
theorem mergeChunkPair_linked {c nxt : Chunk} {a m b : Nat} (n : Nat)
    (hc : c.startWordIndex = a ∧ a ≤ c.endWordIndex ∧ c.wordCount = c.endWordIndex - a
      ∧ c.words.length = c.wordCount ∧ c.endWordIndex = m)
    (hn : nxt.startWordIndex = m ∧ m ≤ nxt.endWordIndex
      ∧ nxt.wordCount = nxt.endWordIndex - m ∧ nxt.words.length = nxt.wordCount
      ∧ nxt.endWordIndex = b) :
    Linked a [mergeChunkPair c nxt n] b := by
  obtain ⟨hc1, hc2, hc3, hc4, hc5⟩ := hc
  obtain ⟨hn1, hn2, hn3, hn4, hn5⟩ := hn
  unfold mergeChunkPair
  simp only [Linked, List.length_append]
  omega

/-- The single-pass walk preserves the range partition. -/
theorem passRec_linked (minW maxW : Nat) :
    ∀ (fuel : Nat) (cs : List Chunk), cs.length ≤ fuel → ∀ {n a b : Nat},
      Linked a cs b → Linked a (passRec minW maxW n cs) b := by
  intro fuel
  induction fuel with
  | zero =>
    intro cs hlen n a b hL
    have : cs = [] := List.length_eq_zero.mp (by omega)
    subst this
    exact hL
  | succ fuel ih =>
    intro cs hlen n a b hL
    cases cs with
    | nil => exact hL
    | cons c rest =>
      obtain ⟨h1, h2, h3, h4, h5⟩ := hL
      unfold passRec
      by_cases hbig : maxW < c.wordCount
      · rw [if_pos hbig]
        have hsplit := splitChunkPair_linked h1 h2 h3 h4 n
        obtain ⟨g1, g2, g3, g4, g5, g6, g7, g8, _⟩ := hsplit
        exact ⟨g1, g2, g3, g4, g5, g6, g7, g8,
          ih rest (by simpa using Nat.le_of_succ_le_succ hlen) h5⟩
      · rw [if_neg hbig]
        cases rest with
        | nil =>
          cases h5
          exact ⟨h1, h2, h3, h4, rfl⟩
        | cons nxt rest' =>
          obtain ⟨g1, g2, g3, g4, g5⟩ := h5
          dsimp only
          by_cases hsmall : c.wordCount < minW
          · rw [if_pos hsmall]
            by_cases hflex : 10 * (c.wordCount + nxt.wordCount) ≤ 12 * maxW
            · rw [if_pos hflex]
              have hm := mergeChunkPair_linked n ⟨h1, h2, h3, h4, rfl⟩
                ⟨g1, g2, g3, g4, rfl⟩
              obtain ⟨k1, k2, k3, k4, _⟩ := hm
              exact ⟨k1, k2, k3, k4,
                ih rest' (by simp at hlen ⊢; omega) g5⟩
            · rw [if_neg hflex]
              exact ⟨h1, h2, h3, h4,
                ih (nxt :: rest') (by simp at hlen ⊢; omega) ⟨g1, g2, g3, g4, g5⟩⟩
          · rw [if_neg hsmall]
            exact ⟨h1, h2, h3, h4,
              ih (nxt :: rest') (by simp at hlen ⊢; omega) ⟨g1, g2, g3, g4, g5⟩⟩

/-- The single-pass walk never empties a non-empty chunk list. -/
theorem passRec_ne_nil (minW maxW : Nat) :
    ∀ (fuel : Nat) (cs : List Chunk), cs.length ≤ fuel → cs ≠ [] → ∀ {n : Nat},
      passRec minW maxW n cs ≠ [] := by
  intro fuel
  induction fuel with
  | zero =>
    intro cs hlen hne
    cases cs with
    | nil => exact absurd rfl hne
    | cons c rest => simp at hlen
  | succ fuel ih =>
    intro cs hlen hne n
    cases cs with
    | nil => exact absurd rfl hne
    | cons c rest =>
      unfold passRec
      by_cases hbig : maxW < c.wordCount
      · rw [if_pos hbig]
        simp
      · rw [if_neg hbig]
        cases rest with
        | nil => simp
        | cons nxt rest' =>
          dsimp only
          by_cases hsmall : c.wordCount < minW
          · rw [if_pos hsmall]
            by_cases hflex : 10 * (c.wordCount + nxt.wordCount) ≤ 12 * maxW
            · rw [if_pos hflex]
              simp
            · rw [if_neg hflex]
              simp
          · rw [if_neg hsmall]
            simp

/-! ## The count-forcing loops preserve the partition and force the count -/

/-- Replacing an adjacent pair by a chunk covering their union preserves
the range partition. -/
theorem linked_replace2 {cs : List Chunk} {lo : Nat} {x y m : Chunk} {a b : Nat}
    (hx : cs[lo]? = some x) (hy : cs[lo + 1]? = some y) (hL : Linked a cs b)
    (hstart : m.startWordIndex = x.startWordIndex)
    (hend : m.endWordIndex = y.endWordIndex)
    (hwc : m.wordCount = x.wordCount + y.wordCount)
    (hwords : m.words.length = x.words.length + y.words.length) :
    Linked a (cs.take lo ++ m :: cs.drop (lo + 2)) b := by
  have hcs : cs = cs.take lo ++ x :: y :: cs.drop (lo + 2) := by
    conv_lhs => rw [← List.take_append_drop lo cs]
    rw [drop_cons_of_getElem hx, drop_cons_of_getElem hy]
  rw [hcs] at hL
  obtain ⟨m0, hL1, hL2⟩ := linked_append.mp hL
  obtain ⟨hx1, hx2, hx3, hx4, hy1, hy2, hy3, hy4, hrest⟩ := hL2
  refine linked_append.mpr ⟨m0, hL1, ?_⟩
  refine ⟨by omega, by omega, by omega, by omega, ?_⟩
  rw [hend]
  exact hrest

/-- Replacing a chunk by the two halves of `splitChunkPair` preserves the
range partition. -/
theorem linked_replace_split {cs : List Chunk} {lo : Nat} {c : Chunk} {a b : Nat}
    (hc : cs[lo]? = some c) (hL : Linked a cs b) (n : Nat) :
    Linked a (cs.take lo ++ (splitChunkPair c n).1 :: (splitChunkPair c n).2
      :: cs.drop (lo + 1)) b := by
  have hcs : cs = cs.take lo ++ c :: cs.drop (lo + 1) := by
    conv_lhs => rw [← List.take_append_drop lo cs]
    rw [drop_cons_of_getElem hc]
  rw [hcs] at hL
  obtain ⟨m0, hL1, hL2⟩ := linked_append.mp hL
  obtain ⟨hc1, hc2, hc3, hc4, hrest⟩ := hL2
  refine linked_append.mpr ⟨m0, hL1, ?_⟩
  have hsplit := splitChunkPair_linked hc1 hc2 hc3 hc4 n
  obtain ⟨g1, g2, g3, g4, g5, g6, g7, g8, g9⟩ := hsplit
  exact ⟨g1, g2, g3, g4, g5, g6, g7, g8, g9 ▸ hrest⟩

/-- Generic bound for the first-best index searches of the count-forcing
loops. -/
theorem foldl_if_mem_bound {g : Nat → Nat → Prop} [∀ a b, Decidable (g a b)] :
    ∀ (l : List Nat) (init : Nat) (P : Nat → Prop), P init → (∀ x ∈ l, P x) →
      P (l.foldl (fun best i => if g best i then i else best) init) := by
  intro l
  induction l with
  | nil => intro init P h0 _; exact h0
  | cons x rest ih =>
    intro init P h0 hmem
    simp only [List.foldl_cons]
    by_cases h : g init x
    · rw [if_pos h]
      exact ih x P (hmem x (by simp)) (fun y hy => hmem y (by simp [hy]))
    · rw [if_neg h]
      exact ih init P h0 (fun y hy => hmem y (by simp [hy]))

/-- The smallest-chunk search stays clear of the final index. -/
theorem smallestIdx_bound {cs : List Chunk} (h : 2 ≤ cs.length) :
    smallestIdx cs ≤ cs.length - 2 := by
  unfold smallestIdx
  refine @foldl_if_mem_bound (fun best i => wcAt cs i < wcAt cs best) _ _ 0
    (fun x => x ≤ cs.length - 2) (by omega) ?_
  intro x hx
  have := List.mem_range'_1.mp hx
  omega

/-- The largest-chunk search stays in bounds. -/
theorem largestIdx_bound {cs : List Chunk} (h : 1 ≤ cs.length) :
    largestIdx cs ≤ cs.length - 1 := by
  unfold largestIdx
  refine @foldl_if_mem_bound (fun best i => wcAt cs best < wcAt cs i) _ _ 0
    (fun x => x ≤ cs.length - 1) (by omega) ?_
  intro x hx
  have := List.mem_range'_1.mp hx
  omega

/-- Reading the adjacency facts of a linked pair out of the partition. -/
theorem linked_pair_facts {cs : List Chunk} {lo : Nat} {x y : Chunk} {a b : Nat}
    (hx : cs[lo]? = some x) (hy : cs[lo + 1]? = some y) (hL : Linked a cs b) :
    y.startWordIndex = x.endWordIndex ∧ x.startWordIndex ≤ x.endWordIndex
      ∧ x.endWordIndex ≤ y.endWordIndex := by
  have hcs : cs = cs.take lo ++ x :: y :: cs.drop (lo + 2) := by
    conv_lhs => rw [← List.take_append_drop lo cs]
    rw [drop_cons_of_getElem hx, drop_cons_of_getElem hy]
  rw [hcs] at hL
  obtain ⟨m0, hL1, hL2⟩ := linked_append.mp hL
  obtain ⟨hx1, hx2, hx3, hx4, hy1, hy2, hy3, hy4, hrest⟩ := hL2
  omega

/-- On a list of at least two chunks, `mergeStep` succeeds, shortens the
list by one and preserves the range partition. -/
theorem mergeStep_props {cs : List Chunk} {a b : Nat} (h2 : 2 ≤ cs.length)
    (hL : Linked a cs b) :
    ∃ cs', mergeStep cs = some cs' ∧ cs'.length + 1 = cs.length ∧ Linked a cs' b := by
  have hsb := smallestIdx_bound h2
  have hsi : smallestIdx cs < cs.length := by omega
  have hti : mergeTargetIdx (smallestIdx cs) < cs.length := by
    cases hcase : smallestIdx cs with
    | zero => simpa [mergeTargetIdx] using h2
    | succ s =>
      rw [hcase] at hsb
      simp only [mergeTargetIdx]
      omega
  have hadj : (smallestIdx cs = 0 ∧ mergeTargetIdx (smallestIdx cs) = 1)
      ∨ (1 ≤ smallestIdx cs ∧ mergeTargetIdx (smallestIdx cs) + 1 = smallestIdx cs) := by
    cases hcase : smallestIdx cs with
    | zero => left; simp [mergeTargetIdx]
    | succ s => right; simp [mergeTargetIdx]
  unfold mergeStep
  rw [if_pos ⟨hsi, hti⟩]
  generalize hsidef : smallestIdx cs = si at hsi hadj
  generalize htidef : mergeTargetIdx si = ti at hti hadj
  have hlo2 : min si ti + 2 ≤ cs.length := by omega
  generalize hlodef : min si ti = lo at hlo2 ⊢
  have hdisj : (si = lo ∧ ti = lo + 1) ∨ (si = lo + 1 ∧ ti = lo) := by omega
  have hlo : lo < cs.length := by omega
  have hlo1 : lo + 1 < cs.length := by omega
  have hx : cs[lo]? = some (cs.getD lo default) := by
    rw [List.getD_eq_getElem?_getD, List.getElem?_eq_getElem hlo]
    rfl
  have hy : cs[lo + 1]? = some (cs.getD (lo + 1) default) := by
    rw [List.getD_eq_getElem?_getD, List.getElem?_eq_getElem hlo1]
    rfl
  obtain ⟨hf1, hf2, hf3⟩ := linked_pair_facts hx hy hL
  refine ⟨_, rfl, ?_, ?_⟩
  · simp only [List.length_append, List.length_cons, List.length_take, List.length_drop]
    omega
  · rcases hdisj with ⟨he1, he2⟩ | ⟨he1, he2⟩ <;>
    · rw [he1, he2]
      refine linked_replace2 hx hy hL ?_ ?_ ?_ ?_ <;>
        first
        | (dsimp only <;> omega)
        | simp [List.length_append]

/-- On a non-empty list, `splitStep` succeeds, lengthens the list by one
and preserves the range partition. -/
theorem splitStep_props {cs : List Chunk} {a b : Nat} (h1 : 1 ≤ cs.length)
    (hL : Linked a cs b) :
    ∃ cs', splitStep cs = some cs' ∧ cs'.length = cs.length + 1 ∧ Linked a cs' b := by
  have hlb := largestIdx_bound h1
  have hli : largestIdx cs < cs.length := by omega
  unfold splitStep
  rw [if_pos hli]
  have hc : cs[largestIdx cs]? = some (cs.getD (largestIdx cs) default) := by
    rw [List.getD_eq_getElem?_getD, List.getElem?_eq_getElem hli]
    rfl
  refine ⟨_, rfl, ?_, ?_⟩
  · simp only [List.length_append, List.length_cons, List.length_take, List.length_drop]
    omega
  · exact linked_replace_split hc hL (largestIdx cs)

/-- The too-many-chunks loop terminates within `cs.length` steps at the
smaller of the current and requested counts, preserving the partition. -/
theorem mergeLoopGo_props :
    ∀ (fuel : Nat) {t : Nat} {cs : List Chunk} {a b : Nat}, cs.length ≤ fuel → 1 ≤ t →
      Linked a cs b →
      ∃ cs', mergeLoopGo t fuel cs = some cs' ∧ cs'.length = min cs.length t
        ∧ Linked a cs' b := by
  intro fuel
  induction fuel with
  | zero =>
    intro t cs a b hlen ht hL
    have h0 : cs.length = 0 := by omega
    refine ⟨cs, ?_, by omega, hL⟩
    unfold mergeLoopGo
    rw [if_neg (by omega)]
  | succ fuel ih =>
    intro t cs a b hlen ht hL
    unfold mergeLoopGo
    by_cases hgt : t < cs.length
    · rw [if_pos hgt]
      obtain ⟨cs1, hstep, hlen1, hL1⟩ := mergeStep_props (by omega) hL
      obtain ⟨cs2, hloop, hlen2, hL2⟩ := ih (t := t) (by omega) ht hL1
      refine ⟨cs2, ?_, by omega, hL2⟩
      rw [hstep]
      exact hloop
    · rw [if_neg hgt]
      exact ⟨cs, rfl, by omega, hL⟩

/-- The too-few-chunks loop terminates within `t - cs.length` steps at the
larger of the current and requested counts, preserving the partition. -/
theorem splitLoopGo_props :
    ∀ (fuel : Nat) {t : Nat} {cs : List Chunk} {a b : Nat}, t - cs.length ≤ fuel →
      1 ≤ cs.length → Linked a cs b →
      ∃ cs', splitLoopGo t fuel cs = some cs' ∧ cs'.length = max cs.length t
        ∧ Linked a cs' b := by
  intro fuel
  induction fuel with
  | zero =>
    intro t cs a b hfuel h1 hL
    refine ⟨cs, ?_, by omega, hL⟩
    unfold splitLoopGo
    rw [if_neg (by omega)]
  | succ fuel ih =>
    intro t cs a b hfuel h1 hL
    unfold splitLoopGo
    by_cases hlt : cs.length < t
    · rw [if_pos hlt]
      obtain ⟨cs1, hstep, hlen1, hL1⟩ := splitStep_props h1 hL
      obtain ⟨cs2, hloop, hlen2, hL2⟩ := ih (t := t) (by omega) (by omega) hL1
      refine ⟨cs2, ?_, by omega, hL2⟩
      rw [hstep]
      exact hloop
    · rw [if_neg hlt]
      exact ⟨cs, rfl, by omega, hL⟩

/-- Renumbering keeps the length. -/
theorem renumberGo_length : ∀ (cs : List Chunk) (i : Nat),
    (renumberGo i cs).length = cs.length
  | [], _ => rfl
  | c :: rest, i => by
    simp [renumberGo, renumberGo_length rest]

/-- Renumbering touches only ids and titles, hence keeps the partition. -/
theorem renumberGo_linked : ∀ {cs : List Chunk} (i : Nat) {a b : Nat},
    Linked a cs b → Linked a (renumberGo i cs) b := by
  intro cs
  induction cs with
  | nil => intro i a b h; exact h
  | cons c rest ih =>
    rintro i a b ⟨h1, h2, h3, h4, h5⟩
    exact ⟨h1, h2, h3, h4, ih (i + 1) h5⟩

/-- Renumbering keeps the word counts, position by position. -/
theorem renumberGo_wordCounts : ∀ (cs : List Chunk) (i : Nat),
    (renumberGo i cs).map Chunk.wordCount = cs.map Chunk.wordCount
  | [], _ => rfl
  | c :: rest, i => by
    simp [renumberGo, renumberGo_wordCounts rest]

/-- One refinement iteration always produces exactly the requested number
of chunks and preserves the range partition. -/
theorem performChunkRefinement_props {chunks : List Chunk} {t tw tol a b : Nat}
    (hne : chunks ≠ []) (ht : 1 ≤ t) (hL : Linked a chunks b) :
    ∃ out, performChunkRefinement chunks t tw tol = some out ∧ out.length = t
      ∧ Linked a out b ∧ out ≠ [] := by
  unfold performChunkRefinement
  have hpassL : Linked a (passIdx (tw - tol) (tw + tol) chunks) b := by
    rw [passIdx_eq_passRec]
    exact passRec_linked _ _ chunks.length chunks (Nat.le_refl _) hL
  have hpassNe : passIdx (tw - tol) (tw + tol) chunks ≠ [] := by
    rw [passIdx_eq_passRec]
    exact passRec_ne_nil _ _ chunks.length chunks (Nat.le_refl _) hne
  have hpass1 : 1 ≤ (passIdx (tw - tol) (tw + tol) chunks).length :=
    List.length_pos.mpr hpassNe
  obtain ⟨cs1, hmerge, hlen1, hL1⟩ :=
    mergeLoopGo_props (passIdx (tw - tol) (tw + tol) chunks).length (Nat.le_refl _) ht hpassL
  obtain ⟨cs2, hsplit, hlen2, hL2⟩ := splitLoopGo_props t (t := t) (by omega) (by omega) hL1
  refine ⟨renumber cs2, ?_, ?_, renumberGo_linked 0 hL2, ?_⟩
  · unfold mergeLoop splitLoop
    dsimp only
    rw [hmerge]
    simp [hsplit]
  · rw [show renumber cs2 = renumberGo 0 cs2 from rfl, renumberGo_length]
    omega
  · have : (renumber cs2).length = cs2.length := renumberGo_length cs2 0
    intro hcon
    rw [hcon] at this
    simp at this
    omega

/-- Bounded refinement keeps a partition of the requested size: whether an
iteration runs or the early-exit fires, the result is `some`, has exactly
`t` chunks, and still tiles the corpus. -/
theorem refineRecGo_props :
    ∀ (budget : Nat) {t tw tol : Nat} {cs : List Chunk} {a b : Nat},
      cs ≠ [] → 1 ≤ t → cs.length = t → Linked a cs b →
      ∃ out, refineRecGo t tw tol budget cs = some out ∧ out.length = t ∧ out ≠ []
        ∧ Linked a out b := by
  intro budget
  induction budget with
  | zero =>
    intro t tw tol cs a b hne ht hlen hL
    exact ⟨cs, rfl, hlen, hne, hL⟩
  | succ budget ih =>
    intro t tw tol cs a b hne ht hlen hL
    unfold refineRecGo
    dsimp only
    by_cases hneed : (cs.any (fun c => c.wordCount < tw - tol || tw + tol < c.wordCount)
        || cs.length ≠ t) = true
    · rw [if_pos hneed]
      obtain ⟨out1, hperf, hlen1, hL1, hne1⟩ := performChunkRefinement_props hne ht hL
      obtain ⟨out2, hrec, hlen2, hne2, hL2⟩ := ih hne1 ht hlen1 hL1
      refine ⟨out2, ?_, hlen2, hne2, hL2⟩
      rw [hperf, Option.some_bind]
      exact hrec
    · rw [if_neg hneed]
      exact ⟨cs, rfl, hlen, hne, hL⟩

/-- The `i`-th initial slice (part_000, lines 791-803). -/
theorem initialChunkAt_linkedAux (words : List Str) (k : Nat) :
    ∀ (cnt : Nat) (j : Nat), 1 ≤ cnt → j + cnt = k →
      Linked (j * (words.length / k))
        ((List.range' j cnt).map (initialChunkAt words k)) words.length := by
  intro cnt
  induction cnt with
  | zero => omega
  | succ cnt ih =>
    intro j h1 hk
    rw [List.range'_succ]
    have hdivmul : k * (words.length / k) ≤ words.length := by
      rw [Nat.mul_comm]
      exact Nat.div_mul_le_self _ _
    cases cnt with
    | zero =>
      have hj : j = k - 1 := by omega
      subst hj
      have hmul : (k - 1) * (words.length / k) ≤ words.length :=
        Nat.le_trans (Nat.mul_le_mul_right _ (by omega)) hdivmul
      simp only [List.map_cons, List.map_nil]
      unfold initialChunkAt
      dsimp only
      rw [if_pos rfl]
      exact ⟨rfl, by dsimp only; omega,
        by dsimp only; simp only [List.length_take, List.length_drop]; omega, rfl, rfl⟩
    | succ cnt =>
      have hj : j ≠ k - 1 := by omega
      have hmul1 : j * (words.length / k) ≤ (j + 1) * (words.length / k) :=
        Nat.mul_le_mul_right _ (by omega)
      have hmul2 : (j + 1) * (words.length / k) ≤ words.length :=
        Nat.le_trans (Nat.mul_le_mul_right _ (by omega)) hdivmul
      simp only [List.map_cons]
      unfold initialChunkAt
      dsimp only
      rw [if_neg hj]
      exact ⟨rfl, by dsimp only; omega,
        by dsimp only; simp only [List.length_take, List.length_drop]; omega, rfl,
        ih (j + 1) (by omega) (by omega)⟩

/-- The initial split is an exact `k`-slice range partition of the corpus
word sequence. -/
theorem initialChunkSplit_linked (ft : FullText) {k : Nat} (hk : 1 ≤ k) :
    Linked 0 (initialChunkSplit ft k) (splitWS ft.text).length := by
  unfold initialChunkSplit
  rw [List.range_eq_range']
  have := initialChunkAt_linkedAux (splitWS ft.text) k k 0 hk (by omega)
  simpa using this

/-- The initial split returns exactly `chunkCount` chunks. -/
theorem initialChunkSplit_length (ft : FullText) (k : Nat) :
    (initialChunkSplit ft k).length = k := by
  simp [initialChunkSplit]

/-- The initial split of a positive chunk count is non-empty. -/
theorem initialChunkSplit_ne_nil (ft : FullText) {k : Nat} (hk : 1 ≤ k) :
    initialChunkSplit ft k ≠ [] := by
  intro h
  have := initialChunkSplit_length ft k
  rw [h] at this
  simp at this
  omega

/-- Final formatting preserves each chunk's word count. -/
theorem formatFinalChunks_wordCounts (chunks : List Chunk) (content : List ContentItem) :
    (formatFinalChunks chunks content).map FinalChunk.wordCount
      = chunks.map Chunk.wordCount := by
  unfold formatFinalChunks
  induction chunks with
  | nil => rfl
  | cons c rest ih => simp [ih]

/-- Final formatting preserves the number of chunks. -/
theorem formatFinalChunks_length (chunks : List Chunk) (content : List ContentItem) :
    (formatFinalChunks chunks content).length = chunks.length := by
  unfold formatFinalChunks
  simp

/-- The refinement stage of `splitIntoChunks` always returns exactly the
requested number of chunks tiling the corpus word sequence, for any
requested count of at least 1. -/
theorem partitionStage_props (chapters : List Chapter) {k : Nat} (hk : 1 ≤ k) :
    ∃ out, partitionStage chapters k = some out ∧ out.length = k
      ∧ Linked 0 out (corpusTotalWords chapters) ∧ out ≠ [] := by
  unfold partitionStage chunkPipeline refineChunksRecursively
  obtain ⟨out, hrec, hlen, hne, hL⟩ := refineRecGo_props (5 - 0)
    (initialChunkSplit_ne_nil _ hk) hk
    (initialChunkSplit_length _ k)
    (initialChunkSplit_linked (combineContentWithMarkers ((sortChapters chapters).map toContent)) hk)
  exact ⟨out, hrec, hlen, hL, hne⟩

/-- `mergeStep` succeeds on any list of at least two chunks (no partition
assumption). -/
theorem mergeStep_some {cs : List Chunk} (h2 : 2 ≤ cs.length) :
    ∃ cs', mergeStep cs = some cs' := by
  have hsb := smallestIdx_bound h2
  have hsi : smallestIdx cs < cs.length := by omega
  have hti : mergeTargetIdx (smallestIdx cs) < cs.length := by
    cases hcase : smallestIdx cs with
    | zero => simpa [mergeTargetIdx] using h2
    | succ s =>
      rw [hcase] at hsb
      simp only [mergeTargetIdx]
      omega
  unfold mergeStep
  rw [if_pos ⟨hsi, hti⟩]
  exact ⟨_, rfl⟩

/-- `splitStep` succeeds on any non-empty list. -/
theorem splitStep_some {cs : List Chunk} (h1 : 1 ≤ cs.length) :
    ∃ cs', splitStep cs = some cs' := by
  have hlb := largestIdx_bound h1
  have hli : largestIdx cs < cs.length := by omega
  unfold splitStep
  rw [if_pos hli]
  exact ⟨_, rfl⟩

/-- Count-only version of the merge-loop property. -/
theorem mergeLoopGo_count :
    ∀ (fuel : Nat) {t : Nat} {cs : List Chunk}, cs.length ≤ fuel → 1 ≤ t →
      ∃ cs', mergeLoopGo t fuel cs = some cs' ∧ cs'.length = min cs.length t := by
  intro fuel
  induction fuel with
  | zero =>
    intro t cs hlen ht
    refine ⟨cs, ?_, by omega⟩
    unfold mergeLoopGo
    rw [if_neg (by omega)]
  | succ fuel ih =>
    intro t cs hlen ht
    unfold mergeLoopGo
    by_cases hgt : t < cs.length
    · rw [if_pos hgt]
      obtain ⟨cs1, hstep⟩ := @mergeStep_some cs (by omega)
      have hlen1 := mergeStep_length hstep
      obtain ⟨cs2, hloop, hlen2⟩ := @ih t cs1 (by omega) ht
      refine ⟨cs2, ?_, by omega⟩
      rw [hstep]
      exact hloop
    · rw [if_neg hgt]
      exact ⟨cs, rfl, by omega⟩

/-- Count-only version of the split-loop property. -/
theorem splitLoopGo_count :
    ∀ (fuel : Nat) {t : Nat} {cs : List Chunk}, t - cs.length ≤ fuel → 1 ≤ cs.length →
      ∃ cs', splitLoopGo t fuel cs = some cs' ∧ cs'.length = max cs.length t := by
  intro fuel
  induction fuel with
  | zero =>
    intro t cs hfuel h1
    refine ⟨cs, ?_, by omega⟩
    unfold splitLoopGo
    rw [if_neg (by omega)]
  | succ fuel ih =>
    intro t cs hfuel h1
    unfold splitLoopGo
    by_cases hlt : cs.length < t
    · rw [if_pos hlt]
      obtain ⟨cs1, hstep⟩ := splitStep_some h1
      have hlen1 := splitStep_length hstep
      obtain ⟨cs2, hloop, hlen2⟩ := @ih t cs1 (by omega) (by omega)
      refine ⟨cs2, ?_, by omega⟩
      rw [hstep]
      exact hloop
    · rw [if_neg hlt]
      exact ⟨cs, rfl, by omega⟩

/-- Count-only version of `performChunkRefinement_props`: one iteration
forces the chunk count to the target on any non-empty working list. -/
theorem performChunkRefinement_count {chunks : List Chunk} {t tw tol : Nat}
    (hne : chunks ≠ []) (ht : 1 ≤ t) :
    ∃ out, performChunkRefinement chunks t tw tol = some out ∧ out.length = t := by
  unfold performChunkRefinement
  have hpassNe : passIdx (tw - tol) (tw + tol) chunks ≠ [] := by
    rw [passIdx_eq_passRec]
    exact passRec_ne_nil _ _ chunks.length chunks (Nat.le_refl _) hne
  have hpass1 : 1 ≤ (passIdx (tw - tol) (tw + tol) chunks).length :=
    List.length_pos.mpr hpassNe
  obtain ⟨cs1, hmerge, hlen1⟩ :=
    mergeLoopGo_count (passIdx (tw - tol) (tw + tol) chunks).length (Nat.le_refl _) ht
  obtain ⟨cs2, hsplit, hlen2⟩ := @splitLoopGo_count t t cs1 (by omega) (by omega)
  refine ⟨renumber cs2, ?_, ?_⟩
  · unfold mergeLoop splitLoop
    dsimp only
    rw [hmerge]
    simp [hsplit]
  · rw [show renumber cs2 = renumberGo 0 cs2 from rfl, renumberGo_length]
    omega

/-! ## Extraction filters -/

/-- Every chapter produced by navigation-driven extraction passed the
meaningful-content filter. -/
theorem navExtraction_min_words (ora : ExtractOracle) (zip : List Str)
    (manifest : Manifest) :
    ∀ (navigation : List NavItem) (processed : List Str) (ch : Chapter),
      ch ∈ extractChaptersFromNavigation ora zip manifest navigation processed →
      10 < ch.wordCount := by
  intro navigation
  induction navigation with
  | nil =>
    intro processed ch hmem
    simp [extractChaptersFromNavigation] at hmem
  | cons nav rest ih =>
    intro processed ch hmem
    unfold extractChaptersFromNavigation at hmem
    cases hfind : navManifestMatch manifest nav.href with
    | none =>
      rw [hfind] at hmem
      exact ih processed ch hmem
    | some mi =>
      rw [hfind] at hmem
      dsimp only at hmem
      by_cases hzip : zip.contains mi.href
      · rw [if_pos hzip] at hmem
        by_cases hproc : processed.contains (mi.href ++ '#' :: nav.href)
        · rw [if_pos hproc] at hmem
          exact ih processed ch hmem
        · rw [if_neg hproc] at hmem
          cases hhtml : ora.extractHTML mi.href with
          | none =>
            rw [hhtml] at hmem
            exact ih _ ch hmem
          | some html =>
            rw [hhtml] at hmem
            dsimp only at hmem
            by_cases hwc : 10 < countWords (ora.extractText
                (if nav.href.contains '#' then
                  (ora.fragment html (fragmentOf nav.href)).getD html
                else html))
            · rw [if_pos hwc] at hmem
              rcases List.mem_cons.mp hmem with heq | hmem'
              · rw [heq]
                exact hwc
              · exact ih _ ch hmem'
            · rw [if_neg hwc] at hmem
              exact ih _ ch hmem
      · rw [if_neg hzip] at hmem
        exact ih processed ch hmem

/-- Every spine entry that resolves and extracts produces a chapter in the
spine-fallback output, with no word-count filter applied. -/
theorem spineGo_mem (ora : ExtractOracle) (zip : List Str) (manifest : Manifest) :
    ∀ (spine : List SpineItem) (base i : Nat) (sp : SpineItem) (mi : ManifestItem)
      (html : Str),
      spine[i]? = some sp → manifestLookup manifest sp.idref = some mi →
      zip.contains mi.href = true → ora.extractHTML mi.href = some html →
      ∃ ch ∈ spineGo ora zip manifest spine base,
        ch.id = str "spine-" ++ natToStr (base + i)
          ∧ ch.wordCount = countWords (ora.extractText html)
          ∧ ch.spineOrder = base + i := by
  intro spine
  induction spine with
  | nil =>
    intro base i sp mi html hget
    simp at hget
  | cons sp0 rest ih =>
    intro base i sp mi html hget hlook hzip hhtml
    cases i with
    | zero =>
      simp at hget
      subst hget
      unfold spineGo
      rw [hlook]
      dsimp only
      rw [if_pos hzip, hhtml]
      refine ⟨_, List.mem_cons_self _ _, ?_, rfl, ?_⟩ <;> simp
    | succ i =>
      have hget' : rest[i]? = some sp := by simpa using hget
      obtain ⟨ch, hmem, hid, hwc, hord⟩ :=
        ih (base + 1) i sp mi html hget' hlook hzip hhtml
      refine ⟨ch, ?_, ?_, hwc, ?_⟩
      · unfold spineGo
        cases hlook0 : manifestLookup manifest sp0.idref with
        | none => exact hmem
        | some mi0 =>
          dsimp only
          by_cases hzip0 : zip.contains mi0.href
          · rw [if_pos hzip0]
            cases hhtml0 : ora.extractHTML mi0.href with
            | none => exact hmem
            | some h0 => exact List.mem_cons_of_mem _ hmem
          · rw [if_neg hzip0]
            exact hmem
      · rw [hid]
        have : base + 1 + i = base + (i + 1) := by omega
        rw [this]
      · omega

/-! ## Concrete fixtures -/

/-- A four-word chapter. -/
def sampleChapter : Chapter :=
  { id := str "c1", title := str "One", htmlContent := [],
    textContent := str "alpha beta gamma delta",
    wordCount := countWords (str "alpha beta gamma delta"), spineOrder := 0 }

/-- A chapter whose text contains tokens without word characters: the
parser's `countWords` sees 2 words, the chunking word sequence has 5. -/
def dashChapter : Chapter :=
  { id := str "cx", title := str "Dashes", htmlContent := [],
    textContent := str "a - - - b",
    wordCount := countWords (str "a - - - b"), spineOrder := 0 }

/-- An undersized working chunk of 3 plain words covering `[0, 3)`. -/
def xChunkA : Chunk :=
  { id := chunkId 1, title := chunkTitle 1, words := List.replicate 3 (str "x"),
    wordCount := 3, startWordIndex := 0, endWordIndex := 3 }

/-- An oversized working chunk of 26 plain words covering `[3, 29)`. -/
def xChunkB : Chunk :=
  { id := chunkId 2, title := chunkTitle 2, words := List.replicate 26 (str "x"),
    wordCount := 26, startWordIndex := 3, endWordIndex := 29 }

/-- Manifest item for `OEBPS/a.html`. -/
def manItemA : ManifestItem :=
  { href := str "OEBPS/a.html", mediaType := str "application/xhtml+xml", properties := [] }

/-- Manifest item for `OEBPS/b.html`. -/
def manItemB : ManifestItem :=
  { href := str "OEBPS/b.html", mediaType := str "application/xhtml+xml", properties := [] }

/-- A manifest whose ids carry digits unrelated to the spine position. -/
def manifestAB : Manifest := [(str "item9", manItemA), (str "item1", manItemB)]

/-- Both resources exist in the archive. -/
def zipAB : List Str := [str "OEBPS/a.html", str "OEBPS/b.html"]

/-- A spine reading `a.html` before `b.html`. -/
def spineAB : List SpineItem :=
  [{ idref := str "item9", order := 0, linear := true },
   { idref := str "item1", order := 1, linear := true }]

/-- Navigation entries for the two resources, in reading order. -/
def navAB : List NavItem :=
  [{ id := str "nav-root-0-0", title := str "A", href := str "a.html" },
   { id := str "nav-root-1-0", title := str "B", href := str "b.html" }]

/-- Extraction oracle returning an 11-word text for every resource. -/
def navOracle : ExtractOracle :=
  { extractHTML := fun _ => some (str "<p>t</p>"), fragment := fun _ _ => none,
    extractText := fun _ => str "one two three four five six seven eight nine ten eleven" }

/-- Extraction oracle returning a single-word text for every resource. -/
def shortOracle : ExtractOracle :=
  { extractHTML := fun _ => some (str "<p>hi</p>"), fragment := fun _ _ => none,
    extractText := fun _ => str "hi" }

/-- The navigation-extracted chapter for `a.html` in the fixture archive. -/
def navChapterA : Chapter :=
  { id := str "nav-root-0-0", title := str "A", htmlContent := str "<p>t</p>",
    textContent := str "one two three four five six seven eight nine ten eleven",
    wordCount := 11, spineOrder := 9 }

/-! ## Claims -/

/-- C1: for every chapter list and every chunkCount ≥ 2, the partition
stage succeeds (converged or budget-exhausted alike) and its chunks'
half-open ranges, in output order (which is sorted by start), tile
`[0, totalWords)` with no gaps and no overlaps. -/
theorem chunk_ranges_tile_corpus (chapters : List Chapter) (k : Nat) (hk : 2 ≤ k) :
    ∃ out, partitionStage chapters k = some out
      ∧ Linked 0 out (corpusTotalWords chapters) := by
  obtain ⟨out, h1, _, hL, _⟩ := partitionStage_props chapters (k := k) (by omega)
  exact ⟨out, h1, hL⟩

/-- C1 witness. -/
theorem chunk_ranges_tile_corpus_witness :
    ∃ out, partitionStage [sampleChapter] 2 = some out
      ∧ Linked 0 out (corpusTotalWords [sampleChapter]) :=
  chunk_ranges_tile_corpus [sampleChapter] 2 (by decide)

/-- C2: for every chapter list and every chunkCount with
2 ≤ chunkCount ≤ totalWords, the formatted chunks returned by
`splitIntoChunks` have word counts summing to the corpus word count (the
length of the whitespace split of the concatenated chapter texts). -/
theorem chunk_wordCount_sum_conserved (chapters : List Chapter) (k : Nat)
    (hk : 2 ≤ k) (hkn : k ≤ corpusTotalWords chapters) :
    ∃ out, splitIntoChunksCore chapters k = some out
      ∧ (out.map FinalChunk.wordCount).sum = corpusTotalWords chapters := by
  obtain ⟨cs, hstage, hlen, hL, hne⟩ := partitionStage_props chapters (k := k) (by omega)
  refine ⟨formatFinalChunks cs ((sortChapters chapters).map toContent), ?_, ?_⟩
  · unfold splitIntoChunksCore
    rw [hstage]
    rfl
  · rw [formatFinalChunks_wordCounts, linked_sum hL]
    omega

/-- C2 witness. -/
theorem chunk_wordCount_sum_conserved_witness :
    ∃ out, splitIntoChunksCore [sampleChapter] 2 = some out
      ∧ (out.map FinalChunk.wordCount).sum = corpusTotalWords [sampleChapter] :=
  chunk_wordCount_sum_conserved [sampleChapter] 2 (by decide) (by decide)

/-- C3 (code bug evidence): `findSpineOrder` never consults the spine —
it parses the digits embedded in the manifest id.  In this archive the
spine reads `a.html` then `b.html`, navigation extracts the chapters in
that order, yet their `spineOrder` fields are 9 and 1, so sorting by
`spineOrder` reverses the reading order. -/
theorem findSpineOrder_ignores_spine :
    (spineAB.map (fun sp => (manifestLookup manifestAB sp.idref).map ManifestItem.href))
      = [some (str "OEBPS/a.html"), some (str "OEBPS/b.html")]
    ∧ (extractChaptersFromNavigation navOracle zipAB manifestAB navAB []).map Chapter.title
      = [str "A", str "B"]
    ∧ (extractChaptersFromNavigation navOracle zipAB manifestAB navAB []).map Chapter.spineOrder
      = [9, 1]
    ∧ (sortChapters (extractChaptersFromNavigation navOracle zipAB manifestAB navAB [])).map
        Chapter.title = [str "B", str "A"] := by
  decide

/-- C4 counterexample: the partition entry point performs the full
partition for chunkCount 1 — no validation error, and chunks are
produced. -/
theorem splitIntoChunks_no_validation_counterexample :
    (splitIntoChunksCore [sampleChapter] 1).isSome = true
    ∧ (splitIntoChunksCore [sampleChapter] 1).map List.length = some 1 := by
  decide

/-- C4 amended: the chunk-count validation (rejecting a missing or
too-small count with the alert, before any work) lives in the preview
calculation `calculateChunks`; the partition operation `splitIntoChunks`
itself performs no validation and partitions for any parsed count, e.g.
producing exactly one chunk for chunkCount 1. -/
theorem chunkCount_validation_located :
    (∀ (chapters : List Chapter) (v : Option Int),
      (∀ n : Int, v = some n → n < 2) →
      calculateChunks chapters v = Except.error chunkCountAlert)
    ∧ (∀ chapters : List Chapter,
        ∃ out, splitIntoChunksCore chapters 1 = some out ∧ out.length = 1) := by
  constructor
  · intro chapters v hv
    cases v with
    | none => rfl
    | some n =>
      unfold calculateChunks
      dsimp only
      rw [if_pos (hv n rfl)]
  · intro chapters
    obtain ⟨cs, hstage, hlen, _, _⟩ := partitionStage_props chapters (k := 1) (by omega)
    refine ⟨formatFinalChunks cs ((sortChapters chapters).map toContent), ?_, ?_⟩
    · unfold splitIntoChunksCore
      rw [hstage]
      rfl
    · rw [formatFinalChunks_length]
      omega

/-- C4 witness. -/
theorem chunkCount_validation_located_witness :
    calculateChunks [sampleChapter] (some 1) = Except.error chunkCountAlert
    ∧ ∃ out, splitIntoChunksCore [sampleChapter] 1 = some out ∧ out.length = 1 :=
  ⟨chunkCount_validation_located.1 [sampleChapter] (some 1)
      (fun n h => by cases h; decide),
   chunkCount_validation_located.2 [sampleChapter]⟩

/-- C5 counterexample: with a chapter whose text holds tokens without
word characters, the target is computed from the stored (filtered) word
counts — 1 — while the claim's formula over the sequence actually split
into chunks gives 2. -/
theorem targetWords_counterexample :
    dashChapter.wordCount = countWords dashChapter.textContent
    ∧ targetWordsOf [dashChapter] 2 = 1
    ∧ corpusTotalWords [dashChapter] = 5
    ∧ corpusTotalWords [dashChapter] / 2 = 2
    ∧ targetWordsOf [dashChapter] 2 ≠ corpusTotalWords [dashChapter] / 2 := by
  decide

/-- C5 amended: the partitioner computes
`targetWordsPerChunk = ⌊totalWords / chunkCount⌋` and
`tolerance = ⌊targetWordsPerChunk·0.1⌋`, but `totalWords` is the sum of
the chapters' stored `wordCount` fields — the parser's count of
whitespace tokens containing a word character — which can undercount the
word sequence that is subsequently split into chunks. -/
theorem targetWords_from_stored_counts :
    (∀ (chapters : List Chapter) (k : Nat),
      targetWordsOf chapters k = (chapters.map Chapter.wordCount).sum / k
      ∧ toleranceOf chapters k = targetWordsOf chapters k / 10)
    ∧ (∀ (chapters : List Chapter) (k : Nat),
        (∀ ch ∈ chapters, ch.wordCount = countWords ch.textContent) →
        targetWordsOf chapters k
          = ((chapters.map (fun ch => countWords ch.textContent)).sum) / k)
    ∧ (∀ t : Str, countWords t ≤ appCountWords t) := by
  refine ⟨fun chapters k => ⟨rfl, rfl⟩, ?_, ?_⟩
  · intro chapters k h
    unfold targetWordsOf storedTotalWords
    congr 1
    congr 1
    exact List.map_congr_left h
  · intro t
    unfold countWords appCountWords
    exact List.length_filter_le _ _

/-- C5 amended witness. -/
theorem targetWords_from_stored_counts_witness :
    targetWordsOf [dashChapter] 2
      = (([dashChapter].map (fun ch => countWords ch.textContent)).sum) / 2
    ∧ countWords (str "a - - - b") ≤ appCountWords (str "a - - - b") :=
  ⟨targetWords_from_stored_counts.2.1 [dashChapter] 2 (by decide),
   targetWords_from_stored_counts.2.2 (str "a - - - b")⟩

/-- C6 counterexample: with an undersized chunk followed by an oversized
one, the source merges the pair first (the oversized successor is
consumed, never split), yielding boundaries (0,14),(14,29); the claimed
split-all-then-merge order yields (0,16),(16,29). -/
theorem refinement_pass_order_counterexample :
    20 + 5 < xChunkB.wordCount
    ∧ (performChunkRefinement [xChunkA, xChunkB] 2 20 5).map
        (fun l => l.map (fun c => (c.startWordIndex, c.endWordIndex)))
      = some [(0, 14), (14, 29)]
    ∧ (specRefineIteration [xChunkA, xChunkB] 2 20 5).map
        (fun l => l.map (fun c => (c.startWordIndex, c.endWordIndex)))
      = some [(0, 16), (16, 29)]
    ∧ performChunkRefinement [xChunkA, xChunkB] 2 20 5
      ≠ specRefineIteration [xChunkA, xChunkB] 2 20 5 := by
  decide

/-- C6 amended: each refinement iteration processes the chunks in a
single left-to-right pass: an oversized chunk is split in place with both
halves replacing it, and an undersized non-final chunk merges with — and
consumes — its immediate original successor when the combined size stays
within `upperBound·1.2`; a consumed successor is not split in that pass
even if oversized, and merging is not restricted to post-split chunks. -/
theorem refinement_single_pass (minW maxW : Nat) (chunks : List Chunk) :
    passIdx minW maxW chunks = passRec minW maxW 0 chunks :=
  passIdx_eq_passRec minW maxW chunks

/-- C8: navigation-driven extraction never emits a chapter of 10 or fewer
words, while spine-fallback extraction applies no word-count filter —
every spine entry whose resource resolves and extracts appears. -/
theorem extraction_filter_asymmetry :
    (∀ (ora : ExtractOracle) (zip : List Str) (manifest : Manifest)
      (navigation : List NavItem) (ch : Chapter),
      ch ∈ extractChaptersFromNavigation ora zip manifest navigation [] →
      10 < ch.wordCount)
    ∧ (∀ (ora : ExtractOracle) (zip : List Str) (manifest : Manifest)
        (spine : List SpineItem) (i : Nat) (sp : SpineItem) (mi : ManifestItem)
        (html : Str),
        spine[i]? = some sp → manifestLookup manifest sp.idref = some mi →
        zip.contains mi.href = true → ora.extractHTML mi.href = some html →
        ∃ ch ∈ extractChaptersFromSpine ora zip manifest spine,
          ch.id = str "spine-" ++ natToStr i
            ∧ ch.wordCount = countWords (ora.extractText html)) := by
  constructor
  · intro ora zip manifest navigation ch hmem
    exact navExtraction_min_words ora zip manifest navigation [] ch hmem
  · intro ora zip manifest spine i sp mi html h1 h2 h3 h4
    obtain ⟨ch, hmem, hid, hwc, _⟩ :=
      spineGo_mem ora zip manifest spine 0 i sp mi html h1 h2 h3 h4
    refine ⟨ch, hmem, ?_, hwc⟩
    simpa using hid

/-- C8 witness: an 11-word chapter passes the navigation filter; a
1-word chapter appears in the spine-fallback output. -/
theorem extraction_filter_asymmetry_witness :
    10 < navChapterA.wordCount
    ∧ (∃ ch ∈ extractChaptersFromSpine shortOracle zipAB manifestAB spineAB,
        ch.id = str "spine-" ++ natToStr 0
          ∧ ch.wordCount = countWords (shortOracle.extractText (str "<p>hi</p>"))) :=
  ⟨extraction_filter_asymmetry.1 navOracle zipAB manifestAB navAB navChapterA (by decide),
   extraction_filter_asymmetry.2 shortOracle zipAB manifestAB spineAB 0
     { idref := str "item9", order := 0, linear := true } manItemA (str "<p>hi</p>")
     (by decide) (by decide) (by decide) rfl⟩

/-- C9: the partitioning computation terminates.  A successful merge step
strictly decreases the chunk count, a split step strictly increases it
and always succeeds on a non-empty list (even for zero- or one-word
chunks, possibly with an empty half), the refinement recursion performs
no work once the 5-iteration budget is exhausted, and the whole partition
stage returns a result for every chapter list and chunkCount ≥ 2. -/
theorem partitioning_terminates :
    (∀ (cs cs' : List Chunk), mergeStep cs = some cs' → cs'.length + 1 = cs.length)
    ∧ (∀ (cs cs' : List Chunk), splitStep cs = some cs' → cs'.length = cs.length + 1)
    ∧ (∀ cs : List Chunk, cs ≠ [] → ∃ cs', splitStep cs = some cs')
    ∧ (∀ (cs : List Chunk) (t tw tol : Nat),
        refineChunksRecursively cs t tw tol 5 5 = some cs)
    ∧ (∀ (chapters : List Chapter) (k : Nat), 2 ≤ k →
        (partitionStage chapters k).isSome = true) := by
  refine ⟨fun cs cs' h => mergeStep_length h, fun cs cs' h => splitStep_length h,
    ?_, ?_, ?_⟩
  · intro cs h
    exact splitStep_some (List.length_pos.mpr h)
  · intro cs t tw tol
    rfl
  · intro chapters k hk
    obtain ⟨out, h1, _, _, _⟩ := partitionStage_props chapters (k := k) (by omega)
    rw [h1]
    rfl

/-- C9 witness. -/
theorem partitioning_terminates_witness :
    ((mergeStep [xChunkA, xChunkB]).getD []).length + 1 = 2
    ∧ ((splitStep [xChunkA]).getD []).length = 1 + 1
    ∧ (∃ cs', splitStep [xChunkA] = some cs')
    ∧ refineChunksRecursively [xChunkA] 2 20 5 5 5 = some [xChunkA]
    ∧ (partitionStage [sampleChapter] 2).isSome = true :=
  ⟨partitioning_terminates.1 [xChunkA, xChunkB] _ (by decide),
   partitioning_terminates.2.1 [xChunkA] _ (by decide),
   partitioning_terminates.2.2.1 [xChunkA] (by decide),
   partitioning_terminates.2.2.2.1 [xChunkA] 2 20 5,
   partitioning_terminates.2.2.2.2 [sampleChapter] 2 (by decide)⟩

/-- C10: every refinement iteration returns exactly `targetCount` chunks
(for a non-empty working list, as the pipeline always supplies), so the
final partition always has exactly the requested number of chunks —
budget exhaustion can only leave sizes outside tolerance, never a wrong
count. -/
theorem refinement_forces_chunk_count :
    (∀ (chunks : List Chunk) (t tw tol : Nat), chunks ≠ [] → 2 ≤ t →
      ∃ out, performChunkRefinement chunks t tw tol = some out ∧ out.length = t)
    ∧ (∀ (chapters : List Chapter) (k : Nat), 2 ≤ k →
        ∃ out, splitIntoChunksCore chapters k = some out ∧ out.length = k) := by
  constructor
  · intro chunks t tw tol hne ht
    exact performChunkRefinement_count hne (by omega)
  · intro chapters k hk
    obtain ⟨cs, hstage, hlen, _, _⟩ := partitionStage_props chapters (k := k) (by omega)
    refine ⟨formatFinalChunks cs ((sortChapters chapters).map toContent), ?_, ?_⟩
    · unfold splitIntoChunksCore
      rw [hstage]
      rfl
    · rw [formatFinalChunks_length]
      omega

/-- C10 witness. -/
theorem refinement_forces_chunk_count_witness :
    (∃ out, performChunkRefinement [xChunkA, xChunkB] 2 20 5 = some out
      ∧ out.length = 2)
    ∧ ∃ out, splitIntoChunksCore [sampleChapter] 2 = some out ∧ out.length = 2 :=
  ⟨refinement_forces_chunk_count.1 [xChunkA, xChunkB] 2 20 5 (by decide) (by decide),
   refinement_forces_chunk_count.2 [sampleChapter] 2 (by decide)⟩

end EpubSplitter
